import Mathlib

/-!
Verification of the inter-rater reliability permutation-test core
(`permute/irr.py`): the concordance statistic `compute_ts` and the
permutation simulator `simulate_ts_dist`, shallowly embedded over
matrices represented as lists of rows of integers.
-/

namespace PermuteIrr

/-- A rating matrix: a list of rows (one per rater), entries are integers
(0/1 in the intended use).  Mirrors the numpy array `ratings`. -/
abbrev Ratings := List (List ℤ)

/-- `R`: number of raters, first component of `ratings.shape`. -/
def nRaters (m : Ratings) : ℕ := m.length

/-- `Ns`: number of items, second component of `ratings.shape`
(the length of a row; for a rectangular array any row gives it). -/
def nItems (m : Ratings) : ℕ := (m.headD []).length

/-- The matrix is rectangular: every row has length `nItems m`
(numpy arrays are rectangular by construction). -/
abbrev Rect (m : Ratings) : Prop := ∀ row ∈ m, row.length = nItems m

/-- Every entry of the matrix is 0 or 1 (a binary rating matrix). -/
abbrev Binary (m : Ratings) : Prop := ∀ row ∈ m, ∀ x ∈ row, x = 0 ∨ x = 1

/-- Entry `i` of `y = ratings.sum(0)`: the sum of column `i` across raters. -/
def colSum (m : Ratings) (i : ℕ) : ℤ := (m.map (fun row => row.getD i 0)).sum

/-- `y = ratings.sum(0)` as a list over the `Ns` columns. -/
def ySums (m : Ratings) : List ℤ := (List.range (nItems m)).map (colSum m)

/-- Per-item concordant pair count `y*(y-1)+(R-y)*(R-y-1)`. -/
def pairCount (R y : ℤ) : ℤ := y * (y - 1) + (R - y) * (R - y - 1)

/-- `counts = y*(y-1)+(R-y)*(R-y-1)`, elementwise over `y`. -/
def countsOf (m : Ratings) : List ℤ := (ySums m).map (pairCount (nRaters m))

/-- The denominator `Ns*R*(R-1)` of the statistic. -/
def denom (m : Ratings) : ℤ :=
  (nItems m : ℤ) * (nRaters m : ℤ) * ((nRaters m : ℤ) - 1)

/-- `compute_ts`: `rho_s = counts.sum()/(Ns*R*(R-1))`, the concordance
statistic of `permute/irr.py` (true division, modelled in `ℚ`). -/
def compute_ts (m : Ratings) : ℚ := ((countsOf m).sum : ℚ) / ((denom m : ℤ) : ℚ)

/-- The statistic exactly as the specification words it: the sum over
items `i` of `y_i*(y_i-1) + (R-y_i)*(R-y_i-1)` — `y_i` the sum of column
`i` across all raters — divided by `N*R*(R-1)`. -/
def rho_spec (m : Ratings) : ℚ :=
  ((∑ i ∈ Finset.range (nItems m),
      (colSum m i * (colSum m i - 1) +
        ((nRaters m : ℤ) - colSum m i) * ((nRaters m : ℤ) - colSum m i - 1)) : ℤ) : ℚ)
    / (((nItems m : ℤ) * (nRaters m : ℤ) * ((nRaters m : ℤ) - 1) : ℤ) : ℚ)

/-- The matrix obtained by applying the column permutation `σ` to every
row (entry `j` of each new row is entry `σ j` of the old row). -/
def colPermute (m : Ratings) (σ : Equiv.Perm (Fin (nItems m))) : Ratings :=
  m.map (fun row => List.ofFn (fun j : Fin (nItems m) => row.getD (σ j) 0))

/-- The result bundle `{obs_ts, geq, iter, dist}` of `simulate_ts_dist`. -/
structure Bundle where
  obs_ts : ℚ
  geq : ℕ
  iter : ℤ
  dist : Option (List ℚ)
deriving DecidableEq

/-- `np.zeros(n)`: numpy raises on a negative size, else gives a zero
array of length `n`. -/
def np_zeros (n : ℤ) : Except String (List ℚ) :=
  if n < 0 then .error "negative dimensions are not allowed"
  else .ok (List.replicate n.toNat 0)

/-- The two arrays alive during a call of `simulate_ts_dist`:
the caller's `ratings` and the working copy `r`. -/
structure SimState where
  caller : Ratings
  work : Ratings
deriving DecidableEq

/-- `r = ratings.copy()`: an independent element-wise copy. -/
def copyMatrix (m : Ratings) : Ratings := m.map (fun row => row.map id)

/-- One shuffle pass `for row in r: np.random.shuffle(row)` of iteration
`k`; the external function `sh` stands for the shuffles the random source
performs, and it writes only the working copy. -/
def shuffleRows (sh : ℕ → Ratings → Ratings) (k : ℕ) (s : SimState) : SimState :=
  ⟨s.caller, sh k s.work⟩

/-- `sh` is a legitimate random source: every pass replaces the matrix by
a row-wise permutation of it (same rows, each a permutation). -/
def IsShuffle (sh : ℕ → Ratings → Ratings) : Prop :=
  ∀ k m, List.Forall₂ List.Perm (sh k m) m

/-- The `keep_dist=True` loop: for each index `i`, shuffle every row and
write `dist[i] = compute_ts(r)`. -/
def keepFold (sh : ℕ → Ratings → Ratings) (l : List ℕ)
    (p : SimState × List ℚ) : SimState × List ℚ :=
  l.foldl (fun p k =>
    let s := shuffleRows sh k p.1
    (s, p.2.set k (compute_ts s.work))) p

/-- The `keep_dist=False` loop: for each index, shuffle every row and add
`compute_ts(r) >= obs_ts` to the running count `geq`. -/
def elseFold (sh : ℕ → Ratings → Ratings) (obs : ℚ) (l : List ℕ)
    (p : SimState × ℕ) : SimState × ℕ :=
  l.foldl (fun p k =>
    let s := shuffleRows sh k p.1
    (s, p.2 + if obs ≤ compute_ts s.work then 1 else 0)) p

/-- The statistics the loop computes, in iteration order: starting at
iteration index `k`, for `n` further iterations from state `s`. -/
def statsFrom (sh : ℕ → Ratings → Ratings) : ℕ → ℕ → SimState → List ℚ
  | _, 0, _ => []
  | k, n + 1, s =>
    compute_ts (shuffleRows sh k s).work ::
      statsFrom sh (k + 1) n (shuffleRows sh k s)

/-- Everything observable about one call of `simulate_ts_dist`: the final
state of the two arrays, the list of matrices the pre-loop reference
branch passed to `compute_ts`, and the returned bundle or raised error. -/
structure SimOut where
  state : SimState
  refCalls : List Ratings
  result : Except String Bundle

/-- `simulate_ts_dist` of `permute/irr.py`, instrumented: copy the
ratings, compute `obs_ts` when not supplied, then run the `keep_dist`
loop (after `np.zeros(iter)`) or the counting loop, over iteration
indices `range(iter)`. -/
def simulate_full (ratings : Ratings) (obs? : Option ℚ) (it : ℤ)
    (keep : Bool) (sh : ℕ → Ratings → Ratings) : SimOut :=
  let s0 : SimState := ⟨ratings, copyMatrix ratings⟩
  let refCalls : List Ratings := if obs?.isNone then [s0.work] else []
  let obs : ℚ := obs?.getD (compute_ts s0.work)
  if keep then
    match np_zeros it with
    | .error e => ⟨s0, refCalls, .error e⟩
    | .ok dist0 =>
      let r := keepFold sh (List.range it.toNat) (s0, dist0)
      ⟨r.1, refCalls,
        .ok ⟨obs, r.2.countP (fun x => decide (obs ≤ x)), it, some r.2⟩⟩
  else
    let r := elseFold sh obs (List.range it.toNat) (s0, 0)
    ⟨r.1, refCalls, .ok ⟨obs, r.2, it, none⟩⟩

/-- The value `simulate_ts_dist` returns (or the error it raises). -/
def simulate_ts_dist (ratings : Ratings) (obs? : Option ℚ) (it : ℤ)
    (keep : Bool) (sh : ℕ → Ratings → Ratings) : Except String Bundle :=
  (simulate_full ratings obs? it keep sh).result

/-- The all-ones matrix of shape `[4, 5]`. -/
def ones45 : Ratings := List.replicate 4 (List.replicate 5 1)

lemma list_range_sum (n : ℕ) (f : ℕ → ℤ) :
    ((List.range n).map f).sum = ∑ i ∈ Finset.range n, f i := by
  induction n with
  | zero => simp
  | succ k ih => rw [List.range_succ, Finset.sum_range_succ, List.map_append,
      List.sum_append, ih]; simp

lemma getD_self_mem {row : List ℤ} {i : ℕ} (h : i < row.length) :
    row.getD i 0 ∈ row := by
  rw [List.getD_eq_getElem row 0 h]
  exact List.getElem_mem h

/-- Column sums are nonnegative for a binary matrix. -/
lemma colSum_nonneg {m : Ratings} (hb : Binary m) (i : ℕ) : 0 ≤ colSum m i := by
  apply List.sum_nonneg
  intro x hx
  simp only [List.mem_map] at hx
  obtain ⟨row, hrow, rfl⟩ := hx
  rcases Nat.lt_or_ge i row.length with h | h
  · rcases hb row hrow (row.getD i 0) (getD_self_mem h) with h0 | h1
    · omega
    · omega
  · rw [List.getD_eq_default _ _ h]

/-- Column sums are at most `R` for a binary matrix. -/
lemma colSum_le {m : Ratings} (hb : Binary m) (i : ℕ) :
    colSum m i ≤ (nRaters m : ℤ) := by
  have h : (m.map (fun row => row.getD i 0)).sum ≤
      (m.map (fun _ => (1 : ℤ))).sum := by
    apply List.sum_le_sum
    intro row hrow
    rcases Nat.lt_or_ge i row.length with h | h
    · rcases hb row hrow (row.getD i 0) (getD_self_mem h) with h0 | h1
      · omega
      · omega
    · rw [List.getD_eq_default _ _ h]; norm_num
  have hconst : (m.map (fun _ => (1 : ℤ))).sum = (m.length : ℤ) := by
    induction m with
    | nil => simp
    | cons r t ih => simp [ih]; ring
  calc colSum m i ≤ (m.map (fun _ => (1 : ℤ))).sum := h
    _ = (nRaters m : ℤ) := hconst

/-- For an integer `0 ≤ y ≤ R`, the pair count is nonnegative. -/
lemma pairCount_nonneg {R y : ℤ} (h0 : 0 ≤ y) (hR : y ≤ R) :
    0 ≤ pairCount R y := by
  unfold pairCount
  have h1 : 0 ≤ y * (y - 1) := by
    rcases eq_or_lt_of_le h0 with h | h
    · simp [← h]
    · exact mul_nonneg (by omega) (by omega)
  have h2 : 0 ≤ (R - y) * (R - y - 1) := by
    rcases eq_or_lt_of_le (sub_nonneg.mpr hR) with h | h
    · simp [← h]
    · exact mul_nonneg (by omega) (by omega)
  omega

/-- For `0 ≤ y ≤ R`, the pair count is at most `R*(R-1)`. -/
lemma pairCount_le {R y : ℤ} (h0 : 0 ≤ y) (hR : y ≤ R) :
    pairCount R y ≤ R * (R - 1) := by
  unfold pairCount
  nlinarith [mul_nonneg h0 (sub_nonneg.mpr hR)]

lemma countsOf_length (m : Ratings) : (countsOf m).length = nItems m := by
  simp [countsOf, ySums]

lemma countsOf_sum_nonneg {m : Ratings} (hb : Binary m) : 0 ≤ (countsOf m).sum := by
  apply List.sum_nonneg
  intro x hx
  simp only [countsOf, ySums, List.map_map, List.mem_map, List.mem_range] at hx
  obtain ⟨i, _, rfl⟩ := hx
  exact pairCount_nonneg (colSum_nonneg hb i) (colSum_le hb i)

lemma countsOf_sum_le {m : Ratings} (hb : Binary m) :
    (countsOf m).sum ≤ (nItems m : ℤ) * ((nRaters m : ℤ) * ((nRaters m : ℤ) - 1)) := by
  have h := List.sum_le_card_nsmul (countsOf m)
      ((nRaters m : ℤ) * ((nRaters m : ℤ) - 1)) ?_
  · rw [countsOf_length] at h
    simpa [nsmul_eq_mul] using h
  · intro x hx
    simp only [countsOf, ySums, List.map_map, List.mem_map, List.mem_range] at hx
    obtain ⟨i, _, rfl⟩ := hx
    exact pairCount_le (colSum_nonneg hb i) (colSum_le hb i)

/-- C1: `compute_ts` equals the specification's closed-form formula. -/
theorem compute_ts_eq_spec (m : Ratings) (hb : Binary m) (hr : Rect m)
    (hR : 2 ≤ nRaters m) (hN : 1 ≤ nItems m) : compute_ts m = rho_spec m := by
  unfold compute_ts rho_spec denom
  congr 2
  rw [countsOf]
  unfold ySums
  rw [List.map_map, list_range_sum]
  exact Finset.sum_congr rfl fun i _ => rfl

/-- Witness for `compute_ts_eq_spec` at the concrete matrix
`[[1,1,0],[1,0,0],[0,1,0]]` from the spec's worked scenario. -/
theorem compute_ts_eq_spec_witness :
    compute_ts [[1,1,0],[1,0,0],[0,1,0]] = rho_spec [[1,1,0],[1,0,0],[0,1,0]] :=
  compute_ts_eq_spec [[1,1,0],[1,0,0],[0,1,0]]
    (by decide) (by decide) (by decide) (by decide)

/-- C2: for a binary matrix with `R ≥ 2` and `N ≥ 1`,
`compute_ts` lies in `[0, 1]`. -/
theorem compute_ts_mem_unitInterval (m : Ratings) (hb : Binary m) (hr : Rect m)
    (hR : 2 ≤ nRaters m) (hN : 1 ≤ nItems m) :
    0 ≤ compute_ts m ∧ compute_ts m ≤ 1 := by
  have hden : (0 : ℚ) < ((denom m : ℤ) : ℚ) := by
    unfold denom
    push_cast
    have h1 : (1 : ℚ) ≤ (nItems m : ℚ) := by exact_mod_cast hN
    have h2 : (2 : ℚ) ≤ (nRaters m : ℚ) := by exact_mod_cast hR
    have hN' : (0 : ℚ) < (nItems m : ℚ) := by linarith
    have hR' : (0 : ℚ) < (nRaters m : ℚ) := by linarith
    have hR1 : (0 : ℚ) < (nRaters m : ℚ) - 1 := by linarith
    exact mul_pos (mul_pos hN' hR') hR1
  unfold compute_ts
  constructor
  · apply div_nonneg _ (le_of_lt hden)
    exact_mod_cast countsOf_sum_nonneg hb
  · rw [div_le_one hden]
    have h : ((countsOf m).sum : ℚ) ≤
        (((nItems m : ℤ) * ((nRaters m : ℤ) * ((nRaters m : ℤ) - 1)) : ℤ) : ℚ) := by
      exact_mod_cast countsOf_sum_le hb
    unfold denom
    push_cast at h ⊢
    linarith

/-- Witness for `compute_ts_mem_unitInterval` at `[[1,1,0],[1,0,0],[0,1,0]]`. -/
theorem compute_ts_mem_unitInterval_witness :
    0 ≤ compute_ts [[1,1,0],[1,0,0],[0,1,0]] ∧
      compute_ts [[1,1,0],[1,0,0],[0,1,0]] ≤ 1 :=
  compute_ts_mem_unitInterval [[1,1,0],[1,0,0],[0,1,0]]
    (by decide) (by decide) (by decide) (by decide)

/-- C4: `compute_ts` performs no validation of `R`: for a one-row matrix
the denominator `Ns*R*(R-1)` is zero and the division is still executed,
unguarded, on that zero denominator. -/
theorem compute_ts_unguarded_R1 (m : Ratings) (h1 : nRaters m = 1) :
    denom m = 0 ∧ compute_ts m = ((countsOf m).sum : ℚ) / ((0 : ℤ) : ℚ) := by
  have hd : denom m = 0 := by unfold denom; rw [h1]; ring
  exact ⟨hd, by unfold compute_ts; rw [hd]⟩

/-- Witness for `compute_ts_unguarded_R1` at the one-row matrix `[[0,1]]`. -/
theorem compute_ts_unguarded_R1_witness :
    denom [[0,1]] = 0 ∧
      compute_ts [[0,1]] = ((countsOf [[0,1]]).sum : ℚ) / ((0 : ℤ) : ℚ) :=
  compute_ts_unguarded_R1 [[0,1]] (by decide)

lemma copyMatrix_eq (m : Ratings) : copyMatrix m = m := by
  simp [copyMatrix]

lemma keepFold_cons (sh : ℕ → Ratings → Ratings) (k : ℕ) (t : List ℕ)
    (s : SimState) (d : List ℚ) :
    keepFold sh (k :: t) (s, d) =
      keepFold sh t (shuffleRows sh k s,
        d.set k (compute_ts (shuffleRows sh k s).work)) := rfl

lemma elseFold_cons (sh : ℕ → Ratings → Ratings) (obs : ℚ) (k : ℕ)
    (t : List ℕ) (s : SimState) (g : ℕ) :
    elseFold sh obs (k :: t) (s, g) =
      elseFold sh obs t (shuffleRows sh k s,
        g + if obs ≤ compute_ts (shuffleRows sh k s).work then 1 else 0) := rfl

lemma keepFold_caller (sh : ℕ → Ratings → Ratings) :
    ∀ (l : List ℕ) (s : SimState) (d : List ℚ),
      (keepFold sh l (s, d)).1.caller = s.caller
  | [], _, _ => rfl
  | k :: t, s, d => by
    rw [keepFold_cons]
    exact keepFold_caller sh t _ _

lemma elseFold_caller (sh : ℕ → Ratings → Ratings) (obs : ℚ) :
    ∀ (l : List ℕ) (s : SimState) (g : ℕ),
      (elseFold sh obs l (s, g)).1.caller = s.caller
  | [], _, _ => rfl
  | k :: t, s, g => by
    rw [elseFold_cons]
    exact elseFold_caller sh obs t _ _

/-- C3: `simulate_ts_dist` never mutates the caller's matrix — after the
whole call, for any inputs and any shuffle sequence, the caller's array
holds exactly its original value; all writes went to the private copy. -/
theorem simulate_ts_dist_no_mutation (ratings : Ratings) (obs? : Option ℚ)
    (it : ℤ) (keep : Bool) (sh : ℕ → Ratings → Ratings) :
    (simulate_full ratings obs? it keep sh).state.caller = ratings := by
  unfold simulate_full
  cases keep with
  | false =>
    simp only [Bool.false_eq_true, if_false]
    exact elseFold_caller sh _ _ _ _
  | true =>
    simp only [if_true]
    cases hz : np_zeros it with
    | error e => simp
    | ok dist0 =>
      simp only
      exact keepFold_caller sh _ _ _

/-- Counterexample to C5 as stated: with retention disabled and
`iter = -1`, `simulate_ts_dist` does not abort — it returns a normal
result bundle (the loop body never runs, `geq = 0`). -/
theorem simulate_neg_iter_no_abort :
    simulate_ts_dist [[1]] (some 1) (-1) false (fun _ r => r)
      = .ok ⟨1, 0, -1, none⟩ := rfl

/-- C5 (amended): for a negative iteration count, the `keep_dist=True`
path aborts with an error (from `np.zeros` on a negative size) and
returns no bundle, while the `keep_dist=False` path runs zero iterations
and returns a bundle with `geq = 0` and no distribution. -/
theorem simulate_neg_iter_behavior (m : Ratings) (obs? : Option ℚ) (it : ℤ)
    (sh : ℕ → Ratings → Ratings) (h : it < 0) :
    simulate_ts_dist m obs? it true sh
        = .error "negative dimensions are not allowed"
    ∧ simulate_ts_dist m obs? it false sh
        = .ok ⟨obs?.getD (compute_ts m), 0, it, none⟩ := by
  have hz : np_zeros it = .error "negative dimensions are not allowed" := by
    unfold np_zeros
    rw [if_pos h]
  have hn : it.toNat = 0 := Int.toNat_of_nonpos h.le
  unfold simulate_ts_dist simulate_full
  rw [copyMatrix_eq]
  constructor
  · simp only [if_true, hz]
  · simp only [Bool.false_eq_true, if_false, hn, List.range_zero]
    rfl

/-- Witness for `simulate_neg_iter_behavior` at `[[1]]`, `iter = -1`. -/
theorem simulate_neg_iter_behavior_witness :
    simulate_ts_dist [[1]] none (-1) true (fun _ r => r)
        = .error "negative dimensions are not allowed"
    ∧ simulate_ts_dist [[1]] none (-1) false (fun _ r => r)
        = .ok ⟨(Option.none (α := ℚ)).getD (compute_ts [[1]]), 0, -1, none⟩ :=
  simulate_neg_iter_behavior [[1]] none (-1) (fun _ r => r) (by decide)

/-- C6: with iteration count 0, `simulate_ts_dist` returns a bundle with
`geq = 0` and a distribution that is the empty sequence when `keep_dist`
is enabled and absent (`None`) when it is disabled. -/
theorem simulate_iter_zero (m : Ratings) (obs? : Option ℚ) (keep : Bool)
    (sh : ℕ → Ratings → Ratings) :
    simulate_ts_dist m obs? 0 keep sh
      = .ok ⟨obs?.getD (compute_ts m), 0, 0, if keep then some [] else none⟩ := by
  unfold simulate_ts_dist simulate_full
  rw [copyMatrix_eq]
  cases keep with
  | false => rfl
  | true => rfl

/-- C10: when a reference statistic is supplied, the pre-loop reference
branch invokes `compute_ts` on no matrix at all, and the bundle's
`obs_ts` field is the supplied value unchanged — for every supplied
value, also outside `[0, 1]`. -/
theorem simulate_obs_supplied (m : Ratings) (q : ℚ) (it : ℤ) (keep : Bool)
    (sh : ℕ → Ratings → Ratings) :
    (simulate_full m (some q) it keep sh).refCalls = []
    ∧ (simulate_full m (some q) it keep sh).result.map Bundle.obs_ts
        = (simulate_full m (some q) it keep sh).result.map (fun _ => q) := by
  unfold simulate_full
  cases keep with
  | false => exact ⟨rfl, rfl⟩
  | true =>
    cases hz : np_zeros it with
    | error e => simp only [hz]; exact ⟨rfl, rfl⟩
    | ok dist0 => simp only [hz]; exact ⟨rfl, rfl⟩

lemma elseFold_geq (sh : ℕ → Ratings → Ratings) (obs : ℚ) :
    ∀ (n k : ℕ) (s : SimState) (g : ℕ),
      (elseFold sh obs (List.range' k n) (s, g)).2
        = g + (statsFrom sh k n s).countP (fun x => decide (obs ≤ x))
  | 0, k, s, g => by simp [elseFold, statsFrom]
  | n + 1, k, s, g => by
    rw [List.range'_succ, elseFold_cons,
      elseFold_geq sh obs n (k + 1) (shuffleRows sh k s) _]
    simp only [statsFrom, List.countP_cons]
    by_cases h : obs ≤ compute_ts (shuffleRows sh k s).work <;>
      simp [h] <;> omega

lemma take_set_succ : ∀ (d : List ℚ) (k : ℕ) (v : ℚ), k < d.length →
    (d.set k v).take (k + 1) = d.take k ++ [v]
  | a :: t, 0, v, _ => by simp
  | a :: t, k + 1, v, h => by
    have ih := take_set_succ t k v (by simpa using h)
    simp [ih]

lemma keepFold_dist (sh : ℕ → Ratings → Ratings) :
    ∀ (n k : ℕ) (s : SimState) (d : List ℚ), k + n ≤ d.length →
      (keepFold sh (List.range' k n) (s, d)).2
        = d.take k ++ statsFrom sh k n s ++ d.drop (k + n)
  | 0, k, s, d, h => by
    simp only [List.range', keepFold, List.foldl_nil, statsFrom,
      List.append_nil, Nat.add_zero]
    simpa using (List.take_append_drop k d).symm
  | n + 1, k, s, d, h => by
    have hk : k < d.length := by omega
    rw [List.range'_succ, keepFold_cons,
      keepFold_dist sh n (k + 1) (shuffleRows sh k s)
        (d.set k (compute_ts (shuffleRows sh k s).work))
        (by rw [List.length_set]; omega)]
    rw [take_set_succ d k _ hk,
      List.drop_set_of_lt _ d (show k < k + 1 + n by omega)]
    simp only [statsFrom]
    rw [show k + 1 + n = k + (n + 1) by omega]
    simp [List.append_assoc]

lemma np_zeros_nonneg {it : ℤ} (h : 0 ≤ it) :
    np_zeros it = .ok (List.replicate it.toNat 0) := by
  unfold np_zeros
  rw [if_neg (not_lt.mpr h)]

/-- For a non-negative iteration count, the `keep_dist=True` call returns
the bundle built from the iteration-ordered statistics list. -/
lemma simulate_keep_eq (m : Ratings) (obs? : Option ℚ) (it : ℤ)
    (sh : ℕ → Ratings → Ratings) (h : 0 ≤ it) :
    simulate_ts_dist m obs? it true sh
      = .ok ⟨obs?.getD (compute_ts (copyMatrix m)),
          (statsFrom sh 0 it.toNat ⟨m, copyMatrix m⟩).countP
            (fun x => decide (obs?.getD (compute_ts (copyMatrix m)) ≤ x)),
          it, some (statsFrom sh 0 it.toNat ⟨m, copyMatrix m⟩)⟩ := by
  have hd : (keepFold sh (List.range it.toNat)
      (⟨m, copyMatrix m⟩, List.replicate it.toNat 0)).2
        = statsFrom sh 0 it.toNat ⟨m, copyMatrix m⟩ := by
    rw [List.range_eq_range',
      keepFold_dist sh it.toNat 0 ⟨m, copyMatrix m⟩ _ (by simp)]
    simp [List.drop_eq_nil_of_le]
  unfold simulate_ts_dist simulate_full
  rw [np_zeros_nonneg h]
  simp only [if_true]
  rw [hd]

/-- For a non-negative iteration count, the `keep_dist=False` call returns
the same count, computed over the same statistics list. -/
lemma simulate_else_eq (m : Ratings) (obs? : Option ℚ) (it : ℤ)
    (sh : ℕ → Ratings → Ratings) :
    simulate_ts_dist m obs? it false sh
      = .ok ⟨obs?.getD (compute_ts (copyMatrix m)),
          (statsFrom sh 0 it.toNat ⟨m, copyMatrix m⟩).countP
            (fun x => decide (obs?.getD (compute_ts (copyMatrix m)) ≤ x)),
          it, none⟩ := by
  have hg := elseFold_geq sh (obs?.getD (compute_ts (copyMatrix m)))
      it.toNat 0 ⟨m, copyMatrix m⟩ 0
  rw [Nat.zero_add] at hg
  unfold simulate_ts_dist simulate_full
  simp only [Bool.false_eq_true, if_false]
  rw [List.range_eq_range', hg]

/-- C9: the two duplicated loops agree — with the same shuffle sequence
and a non-negative iteration count, the `keep_dist=True` and
`keep_dist=False` paths return the same `geq`, and with retention the
returned `geq` equals the number of entries of the returned distribution
that are at least `obs_ts`. -/
theorem simulate_keep_else_agree (m : Ratings) (obs? : Option ℚ) (it : ℤ)
    (sh : ℕ → Ratings → Ratings) (h : 0 ≤ it) :
    (simulate_ts_dist m obs? it true sh).map Bundle.geq
        = (simulate_ts_dist m obs? it false sh).map Bundle.geq
    ∧ (simulate_ts_dist m obs? it true sh).map Bundle.geq
        = (simulate_ts_dist m obs? it true sh).map
            (fun b => (b.dist.getD []).countP (fun x => decide (b.obs_ts ≤ x))) := by
  rw [simulate_keep_eq m obs? it sh h, simulate_else_eq m obs? it sh]
  exact ⟨rfl, rfl⟩

/-- Witness for `simulate_keep_else_agree` at the spec's concrete matrix,
two iterations, identity shuffles. -/
theorem simulate_keep_else_agree_witness :
    (simulate_ts_dist [[1,1,0],[1,0,0],[0,1,0]] none 2 true (fun _ r => r)).map Bundle.geq
        = (simulate_ts_dist [[1,1,0],[1,0,0],[0,1,0]] none 2 false (fun _ r => r)).map Bundle.geq
    ∧ (simulate_ts_dist [[1,1,0],[1,0,0],[0,1,0]] none 2 true (fun _ r => r)).map Bundle.geq
        = (simulate_ts_dist [[1,1,0],[1,0,0],[0,1,0]] none 2 true (fun _ r => r)).map
            (fun b => (b.dist.getD []).countP (fun x => decide (b.obs_ts ≤ x))) :=
  simulate_keep_else_agree [[1,1,0],[1,0,0],[0,1,0]] none 2 (fun _ r => r) (by decide)

lemma forall2_perm_ones : ∀ (k : ℕ) (l : Ratings),
    List.Forall₂ List.Perm l (List.replicate k (List.replicate 5 (1 : ℤ))) →
    l = List.replicate k (List.replicate 5 1)
  | 0, l, h => by
    rw [List.replicate_zero] at h ⊢
    exact List.forall₂_nil_right_iff.mp h
  | k + 1, l, h => by
    rw [List.replicate_succ] at h ⊢
    cases h with
    | cons hab ht =>
      rw [List.perm_replicate.mp hab, forall2_perm_ones k _ ht]

lemma shuffle_fixes_ones {sh : ℕ → Ratings → Ratings} (hsh : IsShuffle sh)
    (k : ℕ) : sh k ones45 = ones45 :=
  forall2_perm_ones 4 _ (hsh k ones45)

lemma compute_ts_ones45 : compute_ts ones45 = 1 := by
  have h : ones45 = [[1,1,1,1,1],[1,1,1,1,1],[1,1,1,1,1],[1,1,1,1,1]] := rfl
  rw [h]
  norm_num [compute_ts, countsOf, ySums, colSum, nItems, nRaters, denom,
    pairCount, List.range_succ]

lemma statsFrom_ones {sh : ℕ → Ratings → Ratings} (hsh : IsShuffle sh) :
    ∀ (n k : ℕ) (c : Ratings),
      statsFrom sh k n ⟨c, ones45⟩ = List.replicate n (compute_ts ones45)
  | 0, _, _ => rfl
  | n + 1, k, c => by
    have hs : shuffleRows sh k (⟨c, ones45⟩ : SimState) = ⟨c, ones45⟩ := by
      unfold shuffleRows
      rw [shuffle_fixes_ones hsh]
    simp only [statsFrom, hs, List.replicate_succ]
    rw [statsFrom_ones hsh n (k + 1) c]

lemma countP_ones_replicate (n : ℕ) :
    (List.replicate n (1 : ℚ)).countP (fun x => decide ((1 : ℚ) ≤ x)) = n := by
  induction n with
  | zero => rfl
  | succ k ih => rw [List.replicate_succ, List.countP_cons]; simp [ih]

/-- C8: on the all-ones `[4, 5]` matrix the statistic is exactly `1`, and
`simulate_ts_dist` with `obs_ts` unspecified returns `geq` equal to the
iteration count, for every non-negative iteration count, either branch,
and every legitimate sequence of row permutations. -/
theorem all_ones_scenario (it : ℤ) (keep : Bool) (sh : ℕ → Ratings → Ratings)
    (hsh : IsShuffle sh) (h : 0 ≤ it) :
    compute_ts ones45 = 1
    ∧ (simulate_ts_dist ones45 none it keep sh).map Bundle.geq = .ok it.toNat := by
  refine ⟨compute_ts_ones45, ?_⟩
  have hobs : (Option.none (α := ℚ)).getD (compute_ts (copyMatrix ones45)) = 1 := by
    rw [Option.getD_none, copyMatrix_eq, compute_ts_ones45]
  have hstats : statsFrom sh 0 it.toNat ⟨ones45, copyMatrix ones45⟩
      = List.replicate it.toNat 1 := by
    rw [copyMatrix_eq, statsFrom_ones hsh, compute_ts_ones45]
  cases keep with
  | true =>
    rw [simulate_keep_eq ones45 none it sh h, hobs, hstats, Except.map,
      countP_ones_replicate]
  | false =>
    rw [simulate_else_eq ones45 none it sh, hobs, hstats, Except.map,
      countP_ones_replicate]

lemma id_isShuffle : IsShuffle (fun _ r => r) := by
  intro k m
  induction m with
  | nil => exact List.Forall₂.nil
  | cons r t ih => exact List.Forall₂.cons (List.Perm.refl r) ih

/-- Witness for `all_ones_scenario`: three iterations, identity shuffles,
retention enabled. -/
theorem all_ones_scenario_witness :
    compute_ts ones45 = 1
    ∧ (simulate_ts_dist ones45 none 3 true (fun _ r => r)).map Bundle.geq
        = .ok (3 : ℤ).toNat :=
  all_ones_scenario 3 true (fun _ r => r) id_isShuffle (by decide)

lemma compute_ts_congr {m m' : Ratings} (hN : nItems m' = nItems m)
    (hR : nRaters m' = nRaters m) (hc : ∀ i, colSum m' i = colSum m i) :
    compute_ts m' = compute_ts m := by
  have h1 : countsOf m' = countsOf m := by
    unfold countsOf ySums
    rw [hN, hR]
    exact congrArg _ (List.map_congr_left fun i _ => hc i)
  have h2 : denom m' = denom m := by
    unfold denom
    rw [hN, hR]
  unfold compute_ts
  rw [h1, h2]

lemma nItems_of_perm {m m' : Ratings} (hr : Rect m) (hp : m.Perm m')
    (hm : m ≠ []) : nItems m' = nItems m := by
  cases m' with
  | nil => exact absurd hp.eq_nil hm
  | cons r t =>
    have hmem : r ∈ m := (hp.mem_iff).mpr (List.mem_cons_self r t)
    exact hr r hmem

lemma colPermute_nRaters (m : Ratings) (σ : Equiv.Perm (Fin (nItems m))) :
    nRaters (colPermute m σ) = nRaters m := by
  simp [colPermute, nRaters]

lemma colPermute_nItems (m : Ratings) (σ : Equiv.Perm (Fin (nItems m))) :
    nItems (colPermute m σ) = nItems m := by
  cases m with
  | nil => rfl
  | cons r t => simp [colPermute, nItems]

lemma colPermute_colSum (m : Ratings) (σ : Equiv.Perm (Fin (nItems m)))
    (j : Fin (nItems m)) :
    colSum (colPermute m σ) (j : ℕ) = colSum m ((σ j : Fin (nItems m)) : ℕ) := by
  unfold colSum colPermute
  rw [List.map_map]
  apply congrArg List.sum
  apply List.map_congr_left
  intro row _
  simp only [Function.comp]
  have hj : (j : ℕ) <
      (List.ofFn fun j' : Fin (nItems m) => row.getD (σ j' : Fin (nItems m)) 0).length := by
    simpa using j.isLt
  rw [List.getD_eq_getElem _ _ hj, List.getElem_ofFn]

lemma colPermute_counts_sum (m : Ratings) (σ : Equiv.Perm (Fin (nItems m))) :
    (countsOf (colPermute m σ)).sum = (countsOf m).sum := by
  unfold countsOf ySums
  rw [List.map_map, List.map_map, list_range_sum, list_range_sum,
    colPermute_nItems, colPermute_nRaters]
  rw [← Fin.sum_univ_eq_sum_range, ← Fin.sum_univ_eq_sum_range]
  calc ∑ j : Fin (nItems m),
        (pairCount (nRaters m : ℤ) ∘ colSum (colPermute m σ)) (j : ℕ)
      = ∑ j : Fin (nItems m), pairCount (nRaters m : ℤ) (colSum m ((σ j : Fin (nItems m)) : ℕ)) := by
        refine Finset.sum_congr rfl fun j _ => ?_
        simp only [Function.comp]
        rw [colPermute_colSum]
    _ = ∑ j : Fin (nItems m), pairCount (nRaters m : ℤ) (colSum m (j : ℕ)) :=
        Equiv.sum_comp σ fun j : Fin (nItems m) =>
          pairCount (nRaters m : ℤ) (colSum m (j : ℕ))
    _ = ∑ j : Fin (nItems m),
        (pairCount (nRaters m : ℤ) ∘ colSum m) (j : ℕ) := rfl

/-- C7: for a binary matrix with `R ≥ 2` and `N ≥ 1`, `compute_ts` is
invariant under permuting the rows (raters) and under permuting the
columns (items). -/
theorem compute_ts_perm_invariant :
    (∀ m m' : Ratings, Binary m → Rect m → 2 ≤ nRaters m → 1 ≤ nItems m →
        m.Perm m' → compute_ts m' = compute_ts m)
    ∧ (∀ m : Ratings, Binary m → Rect m → 2 ≤ nRaters m → 1 ≤ nItems m →
        ∀ σ : Equiv.Perm (Fin (nItems m)),
          compute_ts (colPermute m σ) = compute_ts m) := by
  constructor
  · intro m m' hb hr hR hN hp
    have hm : m ≠ [] := by
      intro h
      rw [h] at hR
      simp [nRaters] at hR
    apply compute_ts_congr (nItems_of_perm hr hp hm) hp.length_eq.symm
    intro i
    exact ((hp.map fun row => row.getD i 0).sum_eq).symm
  · intro m hb hr hR hN σ
    have h2 : denom (colPermute m σ) = denom m := by
      unfold denom
      rw [colPermute_nItems, colPermute_nRaters]
    unfold compute_ts
    rw [colPermute_counts_sum, h2]

/-- Witness for `compute_ts_perm_invariant`: the spec's concrete matrix
with its first two rows swapped, and the column transposition `(0 1)`. -/
theorem compute_ts_perm_invariant_witness :
    compute_ts [[1,0,0],[1,1,0],[0,1,0]] = compute_ts [[1,1,0],[1,0,0],[0,1,0]]
    ∧ compute_ts (colPermute [[1,1,0],[1,0,0],[0,1,0]]
        (Equiv.swap (0 : Fin 3) (1 : Fin 3)))
      = compute_ts [[1,1,0],[1,0,0],[0,1,0]] :=
  ⟨compute_ts_perm_invariant.1 [[1,1,0],[1,0,0],[0,1,0]] [[1,0,0],[1,1,0],[0,1,0]]
      (by decide) (by decide) (by decide) (by decide) (by decide),
   compute_ts_perm_invariant.2 [[1,1,0],[1,0,0],[0,1,0]]
      (by decide) (by decide) (by decide) (by decide)
      (Equiv.swap (0 : Fin 3) (1 : Fin 3))⟩

end PermuteIrr
